import Mathlib

/-!
Verification of the d.ts pruning transformer in
`packages/firestore/gulpfile.js` (the `pruneDts` tool).

The tool walks a TypeScript declaration file and
  * replaces non-exported top-level declarations by `NotEmittedStatement`
    placeholders,
  * strips underscore-prefixed class members,
  * rewrites `@hideconstructor`-tagged constructors to private/protected
    parameterless constructors,
  * drops heritage clauses that point at non-exported types, copying the
    hidden supertype's members onto the subtype, and
  * rewrites type references that point at non-exported types to an
    exported substitute found by a fixed priority search.

This file gives a shallow embedding of the declaration tree the tool
operates on, of the slice of the TypeScript checker API the tool consumes
(`isExported`, `getExportsOfModule`, `getSymbolAtLocation`,
`getTypeAtLocation(...).getProperties()`, `codefix.createMissingMemberNodes`),
and of every function of the tool itself; the theorems at the end settle
the specification claims against this embedding.
-/

/-- Display part of a symbol's documentation comment, as returned by
`symbol.getDocumentationComment` (kinds such as `text`, `linkText`, and the
`lineBreak` separators between the doc blocks of distinct declarations). -/
structure SymbolDisplayPart where
  kind : String
  text : String
deriving DecidableEq, Repr

/-- One JSDoc tag: its tag name and optional comment payload
(`ts.JSDocTag.tagName` / `.comment`). -/
structure JSDocTag where
  tagName : String
  comment : Option String
deriving DecidableEq, Repr

/-- Syntactic modifiers of a declaration or member. -/
inductive Modifier where
  | exportKw
  | declareKw
  | privateKw
  | protectedKw
  | publicKw
  | readonlyKw
  | staticKw
deriving DecidableEq, Repr

/-- The name of a type reference: either a single identifier or a qualified
name such as `ns.T` (`ts.EntityName`). -/
inductive EntityName where
  | ident (name : String)
  | qualified (left : String) (right : String)
deriving DecidableEq, Repr

/-- Expression position of a heritage clause entry
(`ExpressionWithTypeArguments.expression`); the tool only inspects plain
identifiers and treats everything else as opaque. -/
inductive HExpr where
  | ident (name : String)
  | opaqueExpr (repr : String)
deriving DecidableEq, Repr

mutual
/-- A type in signature position: a type reference with type arguments, or a
keyword type (`void`, `string`, ...), which has no children of interest. -/
inductive Ty where
  | ref (typeName : EntityName) (typeArguments : TyList)
  | keyword (name : String)
deriving DecidableEq, Repr

/-- List of types (type-argument lists), kept as a mutual inductive so the
tree walk is structurally recursive. -/
inductive TyList where
  | nil
  | cons (head : Ty) (tail : TyList)
deriving DecidableEq, Repr
end

/-- A parameter of a function, method or constructor. -/
structure Param where
  name : String
  type : Option Ty
deriving DecidableEq, Repr

/-- The syntactic kind of a named class or interface member. The tool's
member filter matches only `PropertyDeclaration`, `MethodDeclaration` and
`GetAccessor` nodes, so the class and interface flavours are kept distinct
here exactly as TypeScript keeps them distinct. -/
inductive MemberKind where
  | propertyDecl
  | propertySig
  | methodDecl
  | methodSig
  | getAccessor
  | setAccessor
deriving DecidableEq, Repr

/-- The data of a named class or interface member: name, modifiers,
parameters (empty for properties), declared or return type, the member's
documentation comment as display parts, and its JSDoc tags. -/
structure ClassElementData where
  name : String
  modifiers : List Modifier
  params : List Param
  type : Option Ty
  docParts : List SymbolDisplayPart
  jsTags : List JSDocTag
deriving DecidableEq, Repr

/-- A member node of a class or interface body: a named class element, a
constructor, a synthesized JSDoc comment node (pushed next to copied
members), or a `NotEmittedStatement` placeholder left by the member filter. -/
inductive Member where
  | element (kind : MemberKind) (data : ClassElementData)
  | ctor (modifiers : List Modifier) (params : List Param) (hasBody : Bool)
      (jsTags : List JSDocTag)
  | jsdocNode (comment : String) (tags : List JSDocTag)
  | notEmittedM
deriving DecidableEq, Repr

/-- One entry of a heritage clause (`ExpressionWithTypeArguments`). -/
structure HeritageType where
  expression : HExpr
  typeArguments : TyList
deriving DecidableEq, Repr

/-- An `extends` or `implements` clause with its list of target types. -/
structure HeritageClause where
  isExtends : Bool
  types : List HeritageType
deriving DecidableEq, Repr

mutual
/-- A top-level (or namespace-nested) declaration node: exactly the kinds the
transformer's export filter matches, plus the `NotEmittedStatement`
placeholder it substitutes for non-exported declarations. -/
inductive Decl where
  | classD (name : String) (modifiers : List Modifier)
      (heritageClauses : List HeritageClause) (members : List Member)
  | interfaceD (name : String) (modifiers : List Modifier)
      (heritageClauses : List HeritageClause) (members : List Member)
  | functionD (name : String) (modifiers : List Modifier)
      (params : List Param) (returnType : Option Ty)
  | typeAliasD (name : String) (modifiers : List Modifier) (aliased : Ty)
  | moduleD (name : String) (modifiers : List Modifier) (body : DeclList)
  | enumD (name : String) (modifiers : List Modifier)
      (memberNames : List String)
  | variableStatement (modifiers : List Modifier)
      (declarations : List (String × Option Ty))
  | notEmitted
deriving DecidableEq, Repr

/-- List of declarations (namespace bodies), kept mutual with `Decl` so the
tree walk is structurally recursive. -/
inductive DeclList where
  | nil
  | cons (head : Decl) (tail : DeclList)
deriving DecidableEq, Repr
end

/-- The source file handed to the transformer: its top-level statements, and
the set of names whose symbol declarations live outside the tree (TypeScript
library types and import specifiers), which `isExported` treats as public.
The transformer always queries the checker of the original program, so this
same structure serves as the resolver environment for the whole run. -/
structure SourceFile where
  externals : List String
  decls : List Decl
deriving DecidableEq, Repr

/-- Names a declaration node introduces into the module's symbol table. -/
def declaredNames : Decl → List String
  | .classD n _ _ _ => [n]
  | .interfaceD n _ _ _ => [n]
  | .functionD n _ _ _ => [n]
  | .typeAliasD n _ _ => [n]
  | .moduleD n _ _ => [n]
  | .enumD n _ _ => [n]
  | .variableStatement _ ds => ds.map (·.1)
  | .notEmitted => []

/-- Modifier list of a declaration node (`node.modifiers`). -/
def declModifiers : Decl → List Modifier
  | .classD _ mods _ _ => mods
  | .interfaceD _ mods _ _ => mods
  | .functionD _ mods _ _ => mods
  | .typeAliasD _ mods _ => mods
  | .moduleD _ mods _ => mods
  | .enumD _ mods _ => mods
  | .variableStatement mods _ => mods
  | .notEmitted => []

/-- Translation of `node.modifiers?.find(m => m.kind === ExportKeyword)`. -/
def modifiersHaveExport (mods : List Modifier) : Bool :=
  mods.any (fun m => m == Modifier.exportKw)

/-- Whether a declaration node carries the `export` modifier. -/
def hasExportModifier (d : Decl) : Bool :=
  modifiersHaveExport (declModifiers d)

/-- Heritage clauses of a declaration (empty for kinds that have none). -/
def declHeritageClauses : Decl → List HeritageClause
  | .classD _ _ hcs _ => hcs
  | .interfaceD _ _ hcs _ => hcs
  | _ => []

/-- Member list of a class or interface declaration. -/
def declMembers : Decl → List Member
  | .classD _ _ _ ms => ms
  | .interfaceD _ _ _ ms => ms
  | _ => []

/-- Whether the node is a class or an interface declaration
(`ts.isClassDeclaration(node) || ts.isInterfaceDeclaration(node)`). -/
def isClassOrInterface : Decl → Bool
  | .classD _ _ _ _ => true
  | .interfaceD _ _ _ _ => true
  | _ => false

/-- First-occurrence deduplication; the checker's symbol table holds one
symbol per name, in declaration order. -/
def dedupFirst (l : List String) : List String :=
  l.foldl (fun acc x => if acc.contains x then acc else acc ++ [x]) []

/-- The names of `typeChecker.getExportsOfModule(sourceFile)`: one symbol per
exported name, in declaration order. -/
def exportedNames (env : SourceFile) : List String :=
  dedupFirst ((env.decls.filter hasExportModifier).flatMap declaredNames)

/-- The declarations of the symbol a name resolves to
(`typeChecker.getSymbolAtLocation(name)?.declarations`). -/
def declsOf (env : SourceFile) (name : String) : List Decl :=
  env.decls.filter (fun d => (declaredNames d).contains name)

/-- Translation of the tool's `isExported`: a name is public when its symbol
declarations live outside the tree (TypeScript library or import specifier,
modelled by the `externals` set), or when the module's exported symbols
contain the name. -/
def isExported (env : SourceFile) (name : String) : Bool :=
  env.externals.contains name || (exportedNames env).contains name

/-- The identifier-named heritage targets of a declaration, in clause and
entry order; non-identifier heritage expressions are skipped, matching the
`ts.isIdentifier(type.expression)` guards in the source. -/
def identHeritageTargets (d : Decl) : List String :=
  (declHeritageClauses d).flatMap (fun c =>
    c.types.filterMap (fun t =>
      match t.expression with
      | .ident n => some n
      | _ => none))

/-- Name of a named class element; `none` for constructors, synthesized
JSDoc nodes and placeholders (their `.name` is not an identifier). -/
def classElementNameOf : Member → Option String
  | .element _ dat => some dat.name
  | _ => none

/-- Translation of `ts.isClassElement`: true for named elements and
constructors, false for JSDoc comment nodes and placeholders. -/
def isClassElementNode : Member → Bool
  | .element _ _ => true
  | .ctor _ _ _ _ => true
  | _ => false

/-- Documentation display parts attached to one member declaration. -/
def memberDocParts : Member → List SymbolDisplayPart
  | .element _ dat => dat.docParts
  | _ => []

/-- JSDoc tags attached to one member declaration (`ts.getJSDocTags`). -/
def memberJsTags : Member → List JSDocTag
  | .element _ dat => dat.jsTags
  | .ctor _ _ _ tags => tags
  | _ => []

/-- A member symbol as returned by `type.getProperties()`: the symbol's name
together with its ordered member declarations (overloads). -/
structure MemberSymbol where
  name : String
  declarations : List Member
deriving DecidableEq, Repr

/-- Member symbols of the type a name declares: the named class elements of
the class/interface declarations of that name, grouped into one symbol per
name in first-occurrence order. This models
`typeChecker.getTypeAtLocation(type).getProperties()` restricted to the
members declared on the named type itself. -/
def memberSymbolsOf (env : SourceFile) (name : String) : List MemberSymbol :=
  let elems := ((declsOf env name).filter isClassOrInterface).flatMap declMembers
  let named := elems.filter (fun m => (classElementNameOf m).isSome)
  (dedupFirst (named.filterMap classElementNameOf)).map (fun nm =>
    { name := nm
      declarations := named.filter (fun m => classElementNameOf m == some nm) })

/-- Properties of the type behind one heritage clause entry
(`typeChecker.getTypeAtLocation(type).getProperties()`); entries whose
expression is not an identifier contribute nothing. -/
def typeProperties (env : SourceFile) (t : HeritageType) : List MemberSymbol :=
  match t.expression with
  | .ident n => memberSymbolsOf env n
  | _ => []

/-- Documentation parts of a member symbol
(`symbol.getDocumentationComment(undefined)`): the doc blocks of the
symbol's declarations, separated by `lineBreak` parts. -/
def symbolDocParts (s : MemberSymbol) : List SymbolDisplayPart :=
  List.intercalate [{ kind := "lineBreak", text := "\n" }]
    (s.declarations.map memberDocParts)

/-- Translation of `hasPrivatePrefix`: identifiers prefixed with an
underscore are not included in the public API
(`name.escapedText.toString().startsWith('_')`, stated on the character
list so that it evaluates by reduction). -/
def hasPrivatePrefix (name : String) : Bool :=
  List.isPrefixOf "_".data name.data

/-- Translation of `maybeHideConstructor`: if a constructor carries a
`@hideconstructor` JSDoc tag it is replaced by a parameterless, bodiless
constructor whose sole modifier is `protected` when the tag comment is the
string `protected`, and `private` otherwise; constructors without the tag
pass through unchanged, and the function is only ever applied to
constructor nodes. -/
def maybeHideConstructor (node : Member) : Member :=
  match node with
  | .ctor _mods _params _hasBody tags =>
    match tags.find? (fun t => t.tagName == "hideconstructor") with
    | some hideConstructorTag =>
      let modifier :=
        if hideConstructorTag.comment == some "protected" then
          Modifier.protectedKw
        else
          Modifier.privateKw
      .ctor [modifier] [] false []
    | none => node
  | _ => node

/-- Translation of the `comments` filter in `extractJSDocComment`: walk the
display parts keeping the parts of the block selected by `overloadCount`,
with `targetIndex` incremented at each `lineBreak` separator (the filter's
mutable `targetIndex`, threaded explicitly). -/
def selectOverloadComments (overloadCount : Nat) :
    Nat → List SymbolDisplayPart → List SymbolDisplayPart
  | _, [] => []
  | targetIndex, part :: rest =>
    if part.kind == "lineBreak" then
      selectOverloadComments overloadCount (targetIndex + 1) rest
    else if overloadCount == targetIndex then
      part :: selectOverloadComments overloadCount targetIndex rest
    else
      selectOverloadComments overloadCount targetIndex rest

/-- JavaScript `String.prototype.replace` with a string pattern: replace the
first occurrence only, on character lists. -/
def replaceFirstChars (pat rep : List Char) : List Char → List Char
  | [] => []
  | c :: cs =>
    if pat.isPrefixOf (c :: cs) then rep ++ (c :: cs).drop pat.length
    else c :: replaceFirstChars pat rep cs

/-- JavaScript `s.replace(pat, rep)` for string literals: first occurrence
only. -/
def jsReplaceFirst (s pat rep : String) : String :=
  ⟨replaceFirstChars pat.data rep.data s.data⟩

/-- Translation of `extractJSDocComment`: choose the documentation block of
the overload currently being processed (the count of already-added class
elements with the symbol's name), format it, and return a synthesized JSDoc
comment node carrying that overload declaration's tags — or `null` when the
selected block is empty. -/
def extractJSDocComment (symbol : MemberSymbol)
    (alreadyAddedMembers : List Member) : Option Member :=
  let overloadCount :=
    (alreadyAddedMembers.filter (fun node =>
      isClassElementNode node &&
        classElementNameOf node == some symbol.name)).length
  let comments := selectOverloadComments overloadCount 0 (symbolDocParts symbol)
  if 0 < comments.length then
    let jsDocTags :=
      ((symbol.declarations.get? overloadCount).map memberJsTags).getD []
    let maybeNewline := if 0 < jsDocTags.length then "\n" else ""
    let joinedComments :=
      String.join (comments.map (fun comment =>
        if comment.kind == "linkText" then comment.text.trim
        else comment.text))
    let formattedComments :=
      jsReplaceFirst (jsReplaceFirst (jsReplaceFirst joinedComments
        "*" "\n") " \n" "\n") "\n " "\n"
    some (.jsdocNode (formattedComments ++ maybeNewline) jsDocTags)
  else
    none

/-- The callback `convertPropertiesForEnclosingClass` hands to
`codefix.createMissingMemberNodes`: it resolves the original symbol by name
and pushes the extracted JSDoc comment node (when one is found) right
before the copied member. -/
def pushCopiedMember (symbol : MemberSymbol) (acc : List Member)
    (missingMember : Member) : List Member :=
  match extractJSDocComment symbol acc with
  | some jsDocComment => acc ++ [jsDocComment, missingMember]
  | none => acc ++ [missingMember]

/-- Handling of one parent symbol by `codefix.createMissingMemberNodes`:
symbols already declared on `currentClass` are skipped; otherwise each of
the symbol's declarations is synthesized and pushed through the callback. -/
def copyMissingSymbol (currentClass : Decl) (newMembers : List Member)
    (symbol : MemberSymbol) : List Member :=
  if ((declMembers currentClass).filterMap classElementNameOf).contains
      symbol.name then
    newMembers
  else
    symbol.declarations.foldl (pushCopiedMember symbol) newMembers

/-- Translation of `convertPropertiesForEnclosingClass`. TypeScript's
`codefix.createMissingMemberNodes` (external compiler API) synthesizes, for
each provided symbol not already declared on `currentClass`, member
declarations with the symbol's signatures and invokes the callback on each;
modelled as emitting each missing symbol's member declarations in order
through `copyMissingSymbol`. -/
def convertPropertiesForEnclosingClass (parentClassSymbols : List MemberSymbol)
    (currentClass : Decl) : List Member :=
  parentClassSymbols.foldl (copyMissingSymbol currentClass) []

/-- The guard of the heritage loop in `prunePrivateImports`:
`ts.isIdentifier(type.expression) && isExported(typeChecker, sourceFile,
type.expression)`. -/
def isExportedHeritageType (env : SourceFile) (t : HeritageType) : Bool :=
  match t.expression with
  | .ident n => isExported env n
  | _ => false

/-- The two accumulators of the heritage loop in `prunePrivateImports`: the
pruned heritage clauses (a clause is pushed only when it keeps at least one
exported entry) and the additional members copied from the hidden types. -/
def pruneHeritage (env : SourceFile) (node : Decl) :
    List HeritageClause × List Member :=
  (declHeritageClauses node).foldl (fun acc heritageClause =>
    let inner := heritageClause.types.foldl
      (fun (a : List HeritageType × List Member) t =>
        if isExportedHeritageType env t then (a.1 ++ [t], a.2)
        else
          (a.1,
            a.2 ++ convertPropertiesForEnclosingClass (typeProperties env t)
              node))
      ([], [])
    ((if 0 < inner.1.length then
        acc.1 ++ [{ heritageClause with types := inner.1 }]
      else acc.1),
      acc.2 ++ inner.2)) ([], [])

/-- Translation of `prunePrivateImports`: examine the heritage clauses,
keep only entries whose target is an exported identifier, merge the members
of the hidden targets into the node's member list, and rebuild the class or
interface; any other node kind throws. -/
def prunePrivateImports (env : SourceFile) (node : Decl) :
    Except String Decl :=
  let pruned := pruneHeritage env node
  match node with
  | .classD n mods _ ms => .ok (.classD n mods pruned.1 (ms ++ pruned.2))
  | .interfaceD n mods _ ms =>
    .ok (.interfaceD n mods pruned.1 (ms ++ pruned.2))
  | _ => .error "Only classes or interfaces are supported"

/-- Translation of `extractExportedSymbol`: for an unqualified, non-exported
type name, search the module's exported symbols for (1) a same-named
symbol, then (2) the first exported symbol one of whose class or interface
declarations has a heritage entry naming the hidden type, then (3) the
first exported heritage target of the hidden type's own class or interface
declarations; qualified names and already-public names yield `none`. -/
def extractExportedSymbol (env : SourceFile) (typeName : EntityName) :
    Option String :=
  match typeName with
  | .qualified _ _ => none
  | .ident localSymbolName =>
    if isExported env localSymbolName then none
    else
      match (exportedNames env).find? (fun s => s == localSymbolName) with
      | some s => some s
      | none =>
        match (exportedNames env).find? (fun s =>
          (declsOf env s).any (fun d =>
            isClassOrInterface d &&
              (identHeritageTargets d).contains localSymbolName)) with
        | some s => some s
        | none =>
          (((declsOf env localSymbolName).filter isClassOrInterface).flatMap
            identHeritageTargets).find? (fun t => isExported env t)

mutual
/-- The type-reference case of `visit` followed by the child walk: rewrite
the reference to the extracted exported symbol when one is found, keep the
existing type arguments, and recurse into them. -/
def transformTy (env : SourceFile) : Ty → Ty
  | .ref typeName typeArguments =>
    (match extractExportedSymbol env typeName with
     | some publicName => .ref (.ident publicName) (transformTys env typeArguments)
     | none => .ref typeName (transformTys env typeArguments))
  | .keyword k => .keyword k

/-- Child walk over a type-argument list. -/
def transformTys (env : SourceFile) : TyList → TyList
  | .nil => .nil
  | .cons t ts => .cons (transformTy env t) (transformTys env ts)
end

/-- Child walk over a parameter: only its type annotation has children the
visitor rewrites. -/
def transformParam (env : SourceFile) (p : Param) : Param :=
  { p with type := p.type.map (transformTy env) }

/-- The member cases of `visit` followed by the child walk: constructors go
through `maybeHideConstructor`; property, method and get-accessor
declarations with an underscore-prefixed name are replaced by
`NotEmittedStatement`; the types in whatever survives are rewritten. -/
def transformMember (env : SourceFile) (m : Member) : Member :=
  match m with
  | .ctor mods params hasBody tags =>
    (match maybeHideConstructor (.ctor mods params hasBody tags) with
     | .ctor mods' params' hasBody' tags' =>
       .ctor mods' (params'.map (transformParam env)) hasBody' tags'
     | other => other)
  | .element kind dat =>
    if (kind == MemberKind.propertyDecl || kind == MemberKind.methodDecl ||
        kind == MemberKind.getAccessor) && hasPrivatePrefix dat.name then
      .notEmittedM
    else
      .element kind
        { dat with
          params := dat.params.map (transformParam env)
          type := dat.type.map (transformTy env) }
  | .jsdocNode c t => .jsdocNode c t
  | .notEmittedM => .notEmittedM

/-- Child walk over a heritage entry: the expression has no type-reference
children, the type arguments are rewritten. -/
def transformHeritageType (env : SourceFile) (t : HeritageType) :
    HeritageType :=
  { t with typeArguments := transformTys env t.typeArguments }

/-- Child walk over a heritage clause. -/
def transformHeritageClause (env : SourceFile) (c : HeritageClause) :
    HeritageClause :=
  { c with types := c.types.map (transformHeritageType env) }

/-- Child walk over the node `prunePrivateImports` returned: members and
heritage type arguments are visited; other node kinds pass through. -/
def mapClassChildren (env : SourceFile) : Decl → Decl
  | .classD n mods hcs ms =>
    .classD n mods (hcs.map (transformHeritageClause env))
      (ms.map (transformMember env))
  | .interfaceD n mods hcs ms =>
    .interfaceD n mods (hcs.map (transformHeritageClause env))
      (ms.map (transformMember env))
  | d => d

mutual
/-- Translation of the transformer's `visit` composed with
`visitNodeAndChildren` for declaration nodes: declaration kinds lacking the
`export` modifier become `NotEmittedStatement` placeholders; exported
classes and interfaces go through `prunePrivateImports` and then their
children; namespace bodies, signatures and aliased types are walked for the
remaining rewrites. -/
def transformDecl (env : SourceFile) : Decl → Except String Decl
  | .classD n mods hcs ms =>
    if !modifiersHaveExport mods then .ok .notEmitted
    else
      match prunePrivateImports env (.classD n mods hcs ms) with
      | .error e => .error e
      | .ok pr => .ok (mapClassChildren env pr)
  | .interfaceD n mods hcs ms =>
    if !modifiersHaveExport mods then .ok .notEmitted
    else
      match prunePrivateImports env (.interfaceD n mods hcs ms) with
      | .error e => .error e
      | .ok pr => .ok (mapClassChildren env pr)
  | .functionD n mods params ret =>
    if !modifiersHaveExport mods then .ok .notEmitted
    else
      .ok (.functionD n mods (params.map (transformParam env))
        (ret.map (transformTy env)))
  | .typeAliasD n mods t =>
    if !modifiersHaveExport mods then .ok .notEmitted
    else .ok (.typeAliasD n mods (transformTy env t))
  | .moduleD n mods body =>
    if !modifiersHaveExport mods then .ok .notEmitted
    else
      match transformDeclList env body with
      | .error e => .error e
      | .ok b => .ok (.moduleD n mods b)
  | .enumD n mods ms =>
    if !modifiersHaveExport mods then .ok .notEmitted
    else .ok (.enumD n mods ms)
  | .variableStatement mods ds =>
    if !modifiersHaveExport mods then .ok .notEmitted
    else
      .ok (.variableStatement mods
        (ds.map (fun p => (p.1, p.2.map (transformTy env)))))
  | .notEmitted => .ok .notEmitted

/-- The child walk over a namespace body. -/
def transformDeclList (env : SourceFile) : DeclList → Except String DeclList
  | .nil => .ok .nil
  | .cons d ds =>
    match transformDecl env d, transformDeclList env ds with
    | .ok d', .ok ds' => .ok (.cons d' ds')
    | .error e, _ => .error e
    | _, .error e => .error e
end

/-- Visit of the source file's top-level statements in order, propagating
the first thrown error. -/
def transformTopLevel (env : SourceFile) : List Decl → Except String (List Decl)
  | [] => .ok []
  | d :: ds =>
    match transformDecl env d, transformTopLevel env ds with
    | .ok d', .ok ds' => .ok (d' :: ds')
    | .error e, _ => .error e
    | _, .error e => .error e

/-- One application of `dropPrivateApiTransformer` to a source file: every
top-level statement is visited in order, with all checker queries answered
against the original file, exactly as the transformer binds its
`typeChecker` and `sourceFile` once for the whole run. -/
def pruneDts (sf : SourceFile) : Except String (List Decl) :=
  transformTopLevel sf sf.decls

/-- Diagnostic kinds named by the specification. -/
inductive DiagnosticKind where
  | unresolvedReference
  | ambiguousOverloadDoc
deriving DecidableEq, Repr

/-- A diagnostic record as described by the specification. -/
structure Diagnostic where
  kind : DiagnosticKind
  location : String
  message : String
deriving DecidableEq, Repr

/-- The diagnostics a pruning run emits. The source contains no diagnostic
collection or reporting of any kind — unresolved references are silently
left in place and missing overload documentation silently falls back to no
comment — so a run's diagnostic output is the empty list. -/
def pruneDiagnostics (_sf : SourceFile) : List Diagnostic :=
  []

/-- Specification-side wording of substitute step (1): "a same-named
exported symbol". -/
def sameNamedExportedSymbol (env : SourceFile) (n : String) : Option String :=
  if (exportedNames env).contains n then some n else none

/-- Specification-side wording of substitute step (2): "an exported
class/interface with a heritage edge targeting the hidden symbol", first in
declaration order. -/
def firstDerivedExportedSymbol (env : SourceFile) (n : String) :
    Option String :=
  (exportedNames env).find? (fun s =>
    (declsOf env s).any (fun d =>
      isClassOrInterface d && (identHeritageTargets d).contains n))

/-- Specification-side wording of substitute step (3): "an exported heritage
target of the hidden symbol's own declaration", first in declaration
order. -/
def exportedHeritageAncestor (env : SourceFile) (n : String) :
    Option String :=
  (((declsOf env n).filter isClassOrInterface).flatMap
    identHeritageTargets).find? (isExported env)

/-- The fixed priority order of the substitute search as the specification
states it: same-named exported symbol, then derived exported type, then
exported ancestor. -/
def substituteSearch (env : SourceFile) (n : String) : Option String :=
  match sameNamedExportedSymbol env n with
  | some s => some s
  | none =>
    match firstDerivedExportedSymbol env n with
    | some s => some s
    | none => exportedHeritageAncestor env n

/-- Specification-side view of a symbol's documentation: the list of
per-overload documentation blocks, split at the `lineBreak` separators. -/
def docBlocks : List SymbolDisplayPart → List (List SymbolDisplayPart)
  | [] => [[]]
  | p :: ps =>
    if p.kind == "lineBreak" then [] :: docBlocks ps
    else
      match docBlocks ps with
      | b :: bs => (p :: b) :: bs
      | [] => [[p]]

/-- Whether a node is one of the seven declaration kinds the export filter
matches (everything except the placeholder). -/
def prunableDeclKind : Decl → Bool
  | .notEmitted => false
  | _ => true

mutual
/-- A type whose references all point at exported or out-of-tree symbols
(qualified names are never rewritten and count as settled). -/
def tyPruned (env : SourceFile) : Ty → Bool
  | .ref typeName typeArguments =>
    (match typeName with
     | .ident s => isExported env s
     | .qualified _ _ => true) && tysPruned env typeArguments
  | .keyword _ => true

/-- `tyPruned` over a type-argument list. -/
def tysPruned (env : SourceFile) : TyList → Bool
  | .nil => true
  | .cons t ts => tyPruned env t && tysPruned env ts
end

/-- `tyPruned` over an optional type annotation. -/
def optTyPruned (env : SourceFile) (o : Option Ty) : Bool :=
  o.all (tyPruned env)

/-- A parameter whose type annotation is settled. -/
def paramPruned (env : SourceFile) (p : Param) : Bool :=
  optTyPruned env p.type

/-- A member already in pruned form: no hidden-prefix name, no
`@hideconstructor` tag, all types settled. -/
def memberPruned (env : SourceFile) : Member → Bool
  | .ctor _ params _ tags =>
    tags.all (fun t => !(t.tagName == "hideconstructor")) &&
      params.all (paramPruned env)
  | .element _ dat =>
    !(hasPrivatePrefix dat.name) && dat.params.all (paramPruned env) &&
      optTyPruned env dat.type
  | .jsdocNode _ _ => true
  | .notEmittedM => true

/-- A heritage entry already in pruned form: an exported identifier target
with settled type arguments. -/
def heritageTypePruned (env : SourceFile) (t : HeritageType) : Bool :=
  isExportedHeritageType env t && tysPruned env t.typeArguments

/-- A heritage clause already in pruned form: nonempty (as every parsed
clause is) with every entry pruned. -/
def heritageClausePruned (env : SourceFile) (c : HeritageClause) : Bool :=
  !(c.types.isEmpty) && c.types.all (heritageTypePruned env)

mutual
/-- A declaration already in pruned form: exported, with pruned members,
heritage and types throughout. -/
def declPruned (env : SourceFile) : Decl → Bool
  | .classD _ mods hcs ms =>
    modifiersHaveExport mods && hcs.all (heritageClausePruned env) &&
      ms.all (memberPruned env)
  | .interfaceD _ mods hcs ms =>
    modifiersHaveExport mods && hcs.all (heritageClausePruned env) &&
      ms.all (memberPruned env)
  | .functionD _ mods params ret =>
    modifiersHaveExport mods && params.all (paramPruned env) &&
      optTyPruned env ret
  | .typeAliasD _ mods t => modifiersHaveExport mods && tyPruned env t
  | .moduleD _ mods body =>
    modifiersHaveExport mods && declListPruned env body
  | .enumD _ mods _ => modifiersHaveExport mods
  | .variableStatement mods ds =>
    modifiersHaveExport mods && ds.all (fun p => optTyPruned env p.2)
  | .notEmitted => true

/-- `declPruned` over a namespace body. -/
def declListPruned (env : SourceFile) : DeclList → Bool
  | .nil => true
  | .cons d ds => declPruned env d && declListPruned env ds
end

/-- A source file that is already fully pruned, in the sense of the
specification's idempotence property: all top-level types exported, no
hidden members, no hide-tagged constructors, and no heritage edge or
signature reference targeting a non-exported in-tree type. -/
def fullyPruned (sf : SourceFile) : Bool :=
  sf.decls.all (declPruned sf)

theorem find?_beq_eq (l : List String) (n : String) :
    l.find? (fun s => s == n) = if l.contains n then some n else none := by
  induction l with
  | nil => simp
  | cons x xs ih =>
    by_cases hx : x = n
    · subst hx
      simp [List.find?]
    · have hbeq : (x == n) = false := by
        simp [hx]
      simp [List.find?, hbeq, ih, List.contains_cons, Ne.symm hx]

mutual
theorem transformDecl_isOk (env : SourceFile) :
    ∀ d : Decl, (transformDecl env d).isOk = true
  | .classD n mods hcs ms => by
    simp only [transformDecl, prunePrivateImports]
    by_cases h : modifiersHaveExport mods <;> simp [h, Except.isOk, Except.toBool]
  | .interfaceD n mods hcs ms => by
    simp only [transformDecl, prunePrivateImports]
    by_cases h : modifiersHaveExport mods <;> simp [h, Except.isOk, Except.toBool]
  | .functionD n mods params ret => by
    simp only [transformDecl]
    by_cases h : modifiersHaveExport mods <;> simp [h, Except.isOk, Except.toBool]
  | .typeAliasD n mods t => by
    simp only [transformDecl]
    by_cases h : modifiersHaveExport mods <;> simp [h, Except.isOk, Except.toBool]
  | .moduleD n mods body => by
    have hb := transformDeclList_isOk env body
    simp only [transformDecl]
    by_cases h : modifiersHaveExport mods
    · cases hbody : transformDeclList env body with
      | ok b => simp [h, hbody, Except.isOk, Except.toBool]
      | error e => simp [hbody, Except.isOk, Except.toBool] at hb
    · simp [h, Except.isOk, Except.toBool]
  | .enumD n mods ms => by
    simp only [transformDecl]
    by_cases h : modifiersHaveExport mods <;> simp [h, Except.isOk, Except.toBool]
  | .variableStatement mods ds => by
    simp only [transformDecl]
    by_cases h : modifiersHaveExport mods <;> simp [h, Except.isOk, Except.toBool]
  | .notEmitted => by
    simp [transformDecl, Except.isOk, Except.toBool]

theorem transformDeclList_isOk (env : SourceFile) :
    ∀ ds : DeclList, (transformDeclList env ds).isOk = true
  | .nil => by simp [transformDeclList, Except.isOk, Except.toBool]
  | .cons d ds => by
    have hd := transformDecl_isOk env d
    have ht := transformDeclList_isOk env ds
    simp only [transformDeclList]
    cases h1 : transformDecl env d with
    | ok d' =>
      cases h2 : transformDeclList env ds with
      | ok ds' => simp [Except.isOk, Except.toBool]
      | error e => simp [h2, Except.isOk, Except.toBool] at ht
    | error e => simp [h1, Except.isOk, Except.toBool] at hd
end

theorem transformTopLevel_isOk (env : SourceFile) :
    ∀ ds : List Decl, (transformTopLevel env ds).isOk = true
  | [] => by simp [transformTopLevel, Except.isOk, Except.toBool]
  | d :: ds => by
    have hd := transformDecl_isOk env d
    have ht := transformTopLevel_isOk env ds
    simp only [transformTopLevel]
    cases h1 : transformDecl env d with
    | ok d' =>
      cases h2 : transformTopLevel env ds with
      | ok ds' => simp [Except.isOk, Except.toBool]
      | error e => simp [h2, Except.isOk, Except.toBool] at ht
    | error e => simp [h1, Except.isOk, Except.toBool] at hd

/-- Shorthand for the `number` keyword type. -/
def tyNumber : Ty := .keyword "number"

/-- Shorthand for the `void` keyword type. -/
def tyVoid : Ty := .keyword "void"

/-- A class element with the given kind, name and type and no other data. -/
def plainElement (kind : MemberKind) (name : String) (type : Option Ty) :
    Member :=
  .element kind
    { name := name, modifiers := [], params := [], type := type,
      docParts := [], jsTags := [] }

/-- Specification scenario: `class Base { _secret: number; ok(): void {} }`
(not exported) and `export class Derived extends Base {}`. -/
def sfScenarioHeritage : SourceFile :=
  { externals := []
    decls :=
      [ .classD "Base" []
          []
          [ plainElement .propertyDecl "_secret" (some tyNumber),
            plainElement .methodDecl "ok" (some tyVoid) ],
        .classD "Derived" [Modifier.exportKw]
          [ { isExtends := true,
              types := [ { expression := .ident "Base",
                           typeArguments := .nil } ] } ]
          [] ] }

/-- Specification scenario: non-exported `interface Hidden {}` and exported
`function f(x: Hidden): void` with no public type related to `Hidden`. -/
def sfScenarioUnresolved : SourceFile :=
  { externals := []
    decls :=
      [ .interfaceD "Hidden" [] [] [],
        .functionD "f" [Modifier.exportKw]
          [ { name := "x", type := some (.ref (.ident "Hidden") .nil) } ]
          (some tyVoid) ] }

/-- Substitution scenario: hidden `class P`, `export class Q extends P`, and
`export function g(p: P): void`. -/
def sfScenarioSubstitute : SourceFile :=
  { externals := []
    decls :=
      [ .classD "P" [] [] [],
        .classD "Q" [Modifier.exportKw]
          [ { isExtends := true,
              types := [ { expression := .ident "P",
                           typeArguments := .nil } ] } ]
          [],
        .functionD "g" [Modifier.exportKw]
          [ { name := "p", type := some (.ref (.ident "P") .nil) } ]
          (some tyVoid) ] }

theorem extract_eq_substituteSearch (env : SourceFile) (n : String)
    (h : isExported env n = false) :
    extractExportedSymbol env (.ident n) = substituteSearch env n := by
  simp only [extractExportedSymbol, h, Bool.false_eq_true, if_false,
    substituteSearch, sameNamedExportedSymbol, firstDerivedExportedSymbol,
    exportedHeritageAncestor, find?_beq_eq]

/-- C9: `prunePrivateImports` raises its "only classes or interfaces are
supported" error exactly on declarations that are neither classes nor
interfaces, and the transformer — which dispatches it only on class and
interface nodes — never aborts: pruning any declaration tree completes. -/
theorem c9_unsupported_kind_error_unreachable :
    (∀ (env : SourceFile) (d : Decl),
      (prunePrivateImports env d).isOk = isClassOrInterface d)
    ∧ (∀ (env : SourceFile) (d : Decl), isClassOrInterface d = false →
        prunePrivateImports env d =
          .error "Only classes or interfaces are supported")
    ∧ (∀ sf : SourceFile, (pruneDts sf).isOk = true) := by
  refine ⟨?_, ?_, ?_⟩
  · intro env d
    cases d <;>
      simp [prunePrivateImports, isClassOrInterface, Except.isOk,
        Except.toBool]
  · intro env d h
    cases d <;> simp_all [prunePrivateImports, isClassOrInterface]
  · intro sf
    exact transformTopLevel_isOk sf sf.decls

theorem c9_witness :
    prunePrivateImports { externals := [], decls := [] }
      (.functionD "f" [] [] none) =
      .error "Only classes or interfaces are supported" :=
  c9_unsupported_kind_error_unreachable.2.1
    { externals := [], decls := [] } (.functionD "f" [] [] none) (by decide)

/-- C10: the substitute search only fires for single unqualified
identifiers: a qualified type name is never rewritten, even in an
environment where the same terminal name, referenced as a plain identifier,
has an exported substitute. -/
theorem c10_qualified_references_left_unchanged :
    (∀ (env : SourceFile) (l r : String) (ts : TyList),
      extractExportedSymbol env (.qualified l r) = none
      ∧ transformTy env (.ref (.qualified l r) ts) =
          .ref (.qualified l r) (transformTys env ts))
    ∧ transformTy sfScenarioSubstitute (.ref (.qualified "NS" "P") .nil) =
        .ref (.qualified "NS" "P") .nil
    ∧ transformTy sfScenarioSubstitute (.ref (.ident "P") .nil) =
        .ref (.ident "Q") .nil := by
  refine ⟨fun env l r ts => ⟨rfl, by simp [transformTy, extractExportedSymbol]⟩,
    by decide, by decide⟩

/-- C1 counterexample: on the specification's own scenario — a hidden
interface referenced by an exported function with no substitute — the run
completes and leaves the reference unchanged, but the diagnostics of the
run are empty: no `UnresolvedReference` diagnostic identifies the
unresolved name, refuting the claim's diagnostic clauses. -/
theorem c1_counterexample_no_diagnostic_emitted :
    pruneDts sfScenarioUnresolved =
      .ok
        [ .notEmitted,
          .functionD "f" [Modifier.exportKw]
            [ { name := "x", type := some (.ref (.ident "Hidden") .nil) } ]
            (some tyVoid) ]
    ∧ isExported sfScenarioUnresolved "Hidden" = false
    ∧ pruneDiagnostics sfScenarioUnresolved = []
    ∧ ¬ ∃ d ∈ pruneDiagnostics sfScenarioUnresolved,
        d.kind = DiagnosticKind.unresolvedReference := by
  refine ⟨by rfl, by decide, rfl, by simp [pruneDiagnostics]⟩

/-- C1 as amended: when the substitute search finds no candidate the
reference is left unchanged in the output and the pruning run still
completes, but no diagnostic of any kind is emitted — the unresolved
reference is silently retained. -/
theorem c1_unresolved_reference_left_unchanged :
    ∀ (env : SourceFile) (name : EntityName) (ts : TyList),
      extractExportedSymbol env name = none →
      transformTy env (.ref name ts) = .ref name (transformTys env ts)
      ∧ (∀ sf : SourceFile, (pruneDts sf).isOk = true)
      ∧ (∀ sf : SourceFile, pruneDiagnostics sf = []) := by
  intro env name ts h
  exact ⟨by simp [transformTy, h],
    fun sf => transformTopLevel_isOk sf sf.decls, fun _ => rfl⟩

theorem c1_witness :
    transformTy sfScenarioUnresolved (.ref (.ident "Hidden") .nil) =
      .ref (.ident "Hidden") (transformTys sfScenarioUnresolved .nil)
    ∧ (pruneDts sfScenarioUnresolved).isOk = true :=
  have h := c1_unresolved_reference_left_unchanged sfScenarioUnresolved
    (.ident "Hidden") .nil (by decide)
  ⟨h.1, h.2.1 sfScenarioUnresolved⟩

/-- C2: references that already resolve to an exported or out-of-tree
symbol are left unchanged; otherwise the reference is rewritten to the
first substitute of the fixed priority order — same-named exported symbol,
then first exported class/interface deriving the hidden symbol, then the
hidden symbol's first exported heritage target — or left unchanged when the
search is empty; in the concrete scenario where public `Q extends P` is the
only eligible candidate for hidden `P`, the signature of `g` references `Q`
in the output. -/
theorem c2_reference_substitution_priority :
    (∀ (env : SourceFile) (n : String) (ts : TyList),
      isExported env n = true →
      transformTy env (.ref (.ident n) ts) =
        .ref (.ident n) (transformTys env ts))
    ∧ (∀ (env : SourceFile) (n : String) (ts : TyList),
      isExported env n = false →
      transformTy env (.ref (.ident n) ts) =
        .ref (.ident ((substituteSearch env n).getD n))
          (transformTys env ts))
    ∧ pruneDts sfScenarioSubstitute =
        .ok
          [ .notEmitted,
            .classD "Q" [Modifier.exportKw] [] [],
            .functionD "g" [Modifier.exportKw]
              [ { name := "p", type := some (.ref (.ident "Q") .nil) } ]
              (some tyVoid) ] := by
  refine ⟨?_, ?_, by rfl⟩
  · intro env n ts h
    simp [transformTy, extractExportedSymbol, h]
  · intro env n ts h
    rw [show transformTy env (.ref (.ident n) ts) =
      (match extractExportedSymbol env (.ident n) with
       | some publicName => .ref (.ident publicName) (transformTys env ts)
       | none => .ref (.ident n) (transformTys env ts)) from rfl,
      extract_eq_substituteSearch env n h]
    cases substituteSearch env n <;> simp

theorem c2_witness :
    transformTy sfScenarioSubstitute (.ref (.ident "P") .nil) =
      .ref (.ident ((substituteSearch sfScenarioSubstitute "P").getD "P"))
        (transformTys sfScenarioSubstitute .nil)
    ∧ transformTy sfScenarioSubstitute (.ref (.ident "Q") .nil) =
        .ref (.ident "Q") (transformTys sfScenarioSubstitute .nil) :=
  ⟨(c2_reference_substitution_priority.2.1 sfScenarioSubstitute "P" .nil
      (by decide)),
    (c2_reference_substitution_priority.1 sfScenarioSubstitute "Q" .nil
      (by decide))⟩

theorem transformDecl_nonExported (env : SourceFile) (d : Decl)
    (h : hasExportModifier d = false) :
    transformDecl env d = .ok .notEmitted := by
  cases d <;> simp_all [transformDecl, hasExportModifier, declModifiers]

theorem transformTopLevel_nonExported (env : SourceFile) :
    ∀ ds : List Decl, ds.all (fun d => !hasExportModifier d) = true →
      transformTopLevel env ds = .ok (ds.map (fun _ => .notEmitted))
  | [], _ => rfl
  | d :: ds, h => by
    rw [List.all_cons, Bool.and_eq_true] at h
    have hd : hasExportModifier d = false := by
      simpa using h.1
    rw [show transformTopLevel env (d :: ds) =
      (match transformDecl env d, transformTopLevel env ds with
       | .ok d', .ok ds' => .ok (d' :: ds')
       | .error e, _ => .error e
       | _, .error e => .error e) from rfl,
      transformDecl_nonExported env d hd,
      transformTopLevel_nonExported env ds h.2]
    rfl

/-- C4: every declaration-kind node lacking the export flag is replaced in
position by the `NotEmittedStatement` placeholder (never deleted); every
declaration retained with content in the output carries the export flag;
and an input with no exported statement yields, without error, a tree of
placeholders of the same length — a valid empty public surface. -/
theorem c4_export_filter_placeholder_contract :
    (∀ (env : SourceFile) (d : Decl), prunableDeclKind d = true →
      hasExportModifier d = false → transformDecl env d = .ok .notEmitted)
    ∧ (∀ (env : SourceFile) (d d' : Decl), transformDecl env d = .ok d' →
        d' ≠ .notEmitted → hasExportModifier d' = true)
    ∧ (∀ sf : SourceFile,
        sf.decls.all (fun d => !hasExportModifier d) = true →
        pruneDts sf = .ok (sf.decls.map (fun _ => .notEmitted))
        ∧ (pruneDts sf).isOk = true) := by
  refine ⟨fun env d _ h => transformDecl_nonExported env d h, ?_, ?_⟩
  · intro env d d' h hne
    by_cases hexp : hasExportModifier d = false
    · rw [transformDecl_nonExported env d hexp] at h
      cases h
      exact absurd rfl hne
    · rw [Bool.not_eq_false] at hexp
      cases d with
      | classD n mods hcs ms =>
        rw [hasExportModifier, declModifiers] at hexp
        simp only [transformDecl, hexp, Bool.not_true, if_false,
          prunePrivateImports] at h
        cases h
        simpa [mapClassChildren, hasExportModifier, declModifiers] using hexp
      | interfaceD n mods hcs ms =>
        rw [hasExportModifier, declModifiers] at hexp
        simp only [transformDecl, hexp, Bool.not_true, if_false,
          prunePrivateImports] at h
        cases h
        simpa [mapClassChildren, hasExportModifier, declModifiers] using hexp
      | functionD n mods params ret =>
        rw [hasExportModifier, declModifiers] at hexp
        simp only [transformDecl, hexp, Bool.not_true, if_false] at h
        cases h
        simpa [hasExportModifier, declModifiers] using hexp
      | typeAliasD n mods t =>
        rw [hasExportModifier, declModifiers] at hexp
        simp only [transformDecl, hexp, Bool.not_true, if_false] at h
        cases h
        simpa [hasExportModifier, declModifiers] using hexp
      | moduleD n mods body =>
        rw [hasExportModifier, declModifiers] at hexp
        simp only [transformDecl, hexp, Bool.not_true, if_false] at h
        cases hb : transformDeclList env body with
        | ok b =>
          rw [hb] at h
          cases h
          simpa [hasExportModifier, declModifiers] using hexp
        | error e =>
          rw [hb] at h
          cases h
      | enumD n mods ms =>
        rw [hasExportModifier, declModifiers] at hexp
        simp only [transformDecl, hexp, Bool.not_true, if_false] at h
        cases h
        simpa [hasExportModifier, declModifiers] using hexp
      | variableStatement mods ds =>
        rw [hasExportModifier, declModifiers] at hexp
        simp only [transformDecl, hexp, Bool.not_true, if_false] at h
        cases h
        simpa [hasExportModifier, declModifiers] using hexp
      | notEmitted =>
        simp only [transformDecl] at h
        cases h
        exact absurd rfl hne
  · intro sf h
    exact ⟨transformTopLevel_nonExported sf sf.decls h,
      transformTopLevel_isOk sf sf.decls⟩

theorem c4_witness :
    transformDecl sfScenarioHeritage
        (.classD "Base" []
          []
          [ plainElement .propertyDecl "_secret" (some tyNumber),
            plainElement .methodDecl "ok" (some tyVoid) ]) =
      .ok .notEmitted
    ∧ pruneDts { externals := [], decls := [.interfaceD "A" [] [] [],
        .functionD "h" [] [] none] } =
      .ok [.notEmitted, .notEmitted] :=
  ⟨c4_export_filter_placeholder_contract.1 sfScenarioHeritage _ (by decide)
      (by decide),
    (c4_export_filter_placeholder_contract.2.2
      { externals := [], decls := [.interfaceD "A" [] [] [],
          .functionD "h" [] [] none] } (by decide)).1⟩

/-- Failing input for C5: an exported interface with an underscore-prefixed
property signature and an exported class with an underscore-prefixed set
accessor. -/
def sfSignatureMembers : SourceFile :=
  { externals := []
    decls :=
      [ .interfaceD "I" [Modifier.exportKw] []
          [ plainElement .propertySig "_foo" (some tyNumber) ],
        .classD "C" [Modifier.exportKw] []
          [ plainElement .setAccessor "_bar" (some tyNumber) ] ] }

/-- C5 is violated by the code: the member filter matches only
`PropertyDeclaration`, `MethodDeclaration` and `GetAccessor` nodes, so an
underscore-prefixed property signature of an interface and an
underscore-prefixed set accessor of a class are retained verbatim in the
output, contradicting the claim (and the tool's own header comment, which
says underscore-prefixed members of class and interface types are
stripped); an underscore-prefixed property declaration of a class is
stripped as claimed. -/
theorem c5_hidden_members_retained_bug :
    pruneDts sfSignatureMembers =
      .ok
        [ .interfaceD "I" [Modifier.exportKw] []
            [ plainElement .propertySig "_foo" (some tyNumber) ],
          .classD "C" [Modifier.exportKw] []
            [ plainElement .setAccessor "_bar" (some tyNumber) ] ]
    ∧ hasPrivatePrefix "_foo" = true
    ∧ hasPrivatePrefix "_bar" = true
    ∧ transformMember sfSignatureMembers
        (plainElement .propertyDecl "_x" none) = .notEmittedM
    ∧ transformMember sfSignatureMembers
        (plainElement .propertySig "_x" none) =
      plainElement .propertySig "_x" none := by
  exact ⟨rfl, rfl, rfl, rfl, rfl⟩

/-- The `@hideconstructor protected` tag. -/
def hideTagProtected : JSDocTag :=
  { tagName := "hideconstructor", comment := some "protected" }

/-- Hide-constructor scenario: an exported class with a
`@hideconstructor protected` constructor and an ordinary method. -/
def sfScenarioHideCtor : SourceFile :=
  { externals := []
    decls :=
      [ .classD "T" [Modifier.exportKw] []
          [ .ctor [] [ { name := "a", type := some tyNumber } ] true
              [hideTagProtected],
            plainElement .methodDecl "ok" (some tyVoid) ] ] }

/-- C6: a constructor whose documentation carries the `hideconstructor` tag
is rewritten to a constructor with no parameters, no body, and exactly one
visibility modifier — `protected` when the tag payload is the string
`protected`, `private` otherwise; a constructor without the tag passes
through `maybeHideConstructor` unchanged; and in the concrete scenario the
same class's other method is untouched by the rewrite. -/
theorem c6_hide_constructor_visibility :
    (∀ (mods : List Modifier) (params : List Param) (hasBody : Bool)
        (tags : List JSDocTag) (tag : JSDocTag),
      tags.find? (fun t => t.tagName == "hideconstructor") = some tag →
      maybeHideConstructor (.ctor mods params hasBody tags) =
        .ctor
          [ if tag.comment == some "protected" then Modifier.protectedKw
            else Modifier.privateKw ] [] false [])
    ∧ (∀ (mods : List Modifier) (params : List Param) (hasBody : Bool)
        (tags : List JSDocTag),
      tags.find? (fun t => t.tagName == "hideconstructor") = none →
      maybeHideConstructor (.ctor mods params hasBody tags) =
        .ctor mods params hasBody tags)
    ∧ pruneDts sfScenarioHideCtor =
        .ok
          [ .classD "T" [Modifier.exportKw] []
              [ .ctor [Modifier.protectedKw] [] false [],
                plainElement .methodDecl "ok" (some tyVoid) ] ] := by
  refine ⟨?_, ?_, by rfl⟩
  · intro mods params hasBody tags tag h
    simp [maybeHideConstructor, h]
  · intro mods params hasBody tags h
    simp [maybeHideConstructor, h]

theorem c6_witness :
    maybeHideConstructor
        (.ctor [] [ { name := "a", type := some tyNumber } ] true
          [hideTagProtected]) =
      .ctor [Modifier.protectedKw] [] false []
    ∧ maybeHideConstructor
        (.ctor [Modifier.publicKw] [] true
          [ { tagName := "hideconstructor", comment := none } ]) =
      .ctor [Modifier.privateKw] [] false []
    ∧ maybeHideConstructor (.ctor [] [] true []) = .ctor [] [] true [] := by
  refine ⟨?_, ?_, ?_⟩
  · have h := c6_hide_constructor_visibility.1 []
      [ { name := "a", type := some tyNumber } ] true [hideTagProtected]
      hideTagProtected (by decide)
    simpa [hideTagProtected] using h
  · have h := c6_hide_constructor_visibility.1 [Modifier.publicKw] [] true
      [ { tagName := "hideconstructor", comment := none } ]
      { tagName := "hideconstructor", comment := none } (by decide)
    simpa using h
  · exact c6_hide_constructor_visibility.2.1 [] [] true [] (by decide)

theorem docBlocks_ne_nil : ∀ parts : List SymbolDisplayPart,
    docBlocks parts ≠ []
  | [] => by simp [docBlocks]
  | p :: ps => by
    by_cases h : p.kind == "lineBreak"
    · simp [docBlocks, h]
    · simp only [docBlocks, h, Bool.false_eq_true, if_false]
      cases hb : docBlocks ps with
      | nil => simp
      | cons b bs => simp

theorem select_eq_docBlocks (overloadCount : Nat) :
    ∀ (parts : List SymbolDisplayPart) (targetIndex : Nat),
      selectOverloadComments overloadCount targetIndex parts =
        if targetIndex ≤ overloadCount then
          (docBlocks parts).getD (overloadCount - targetIndex) []
        else []
  | [], ti => by
    have hall : ∀ m : Nat,
        ([([] : List SymbolDisplayPart)].getD m []) = [] := by
      intro m
      cases m <;> simp [List.getD]
    simp [selectOverloadComments, docBlocks, hall]
  | p :: ps, ti => by
    by_cases h : p.kind == "lineBreak"
    · rw [show selectOverloadComments overloadCount ti (p :: ps) =
        selectOverloadComments overloadCount (ti + 1) ps from by
          simp [selectOverloadComments, h],
        select_eq_docBlocks overloadCount ps (ti + 1)]
      simp only [docBlocks, h, if_true]
      rcases Nat.lt_trichotomy ti overloadCount with hlt | heq | hgt
      · have h1 : ti + 1 ≤ overloadCount := hlt
        have h2 : ti ≤ overloadCount := Nat.le_of_lt hlt
        have h3 : overloadCount - ti = (overloadCount - (ti + 1)) + 1 := by
          omega
        simp [h1, h2, h3, List.getD]
      · subst heq
        simp [List.getD]
      · have h1 : ¬ (ti + 1 ≤ overloadCount) := by omega
        have h2 : ¬ (ti ≤ overloadCount) := by omega
        simp [h1, h2]
    · obtain ⟨b, bs, hb⟩ :
          ∃ b bs, docBlocks ps = b :: bs := by
        cases hbps : docBlocks ps with
        | nil => exact absurd hbps (docBlocks_ne_nil ps)
        | cons x xs => exact ⟨x, xs, rfl⟩
      have hblocks : docBlocks (p :: ps) = (p :: b) :: bs := by
        simp [docBlocks, h, hb]
      by_cases hk : overloadCount == ti
      · have hkt : overloadCount = ti := by
          simpa using hk
        subst hkt
        rw [show selectOverloadComments overloadCount overloadCount
            (p :: ps) =
          p :: selectOverloadComments overloadCount overloadCount ps from by
            simp [selectOverloadComments, h],
          select_eq_docBlocks overloadCount ps overloadCount, hblocks, hb]
        simp [List.getD]
      · have hkt : ¬ overloadCount = ti := by
          simpa using hk
        rw [show selectOverloadComments overloadCount ti (p :: ps) =
          selectOverloadComments overloadCount ti ps from by
            simp [selectOverloadComments, h, hk],
          select_eq_docBlocks overloadCount ps ti, hblocks, hb]
        by_cases hle : ti ≤ overloadCount
        · obtain ⟨m, hm⟩ : ∃ m, overloadCount - ti = m + 1 :=
            ⟨overloadCount - ti - 1, by omega⟩
          simp [hle, hm, List.getD]
        · simp [hle]

/-- Specification-side formatting of one documentation block, exactly as
`extractJSDocComment` formats the selected comment parts. -/
def formatDocBlock (block : List SymbolDisplayPart) : String :=
  jsReplaceFirst (jsReplaceFirst (jsReplaceFirst
    (String.join (block.map (fun comment =>
      if comment.kind == "linkText" then comment.text.trim
      else comment.text)))
    "*" "\n") " \n" "\n") "\n " "\n"

/-- JSDoc tags of the overload declaration at the given index
(`ts.getJSDocTags(symbol.declarations[overloadCount])`). -/
def overloadTags (symbol : MemberSymbol) (overloadCount : Nat) :
    List JSDocTag :=
  ((symbol.declarations.get? overloadCount).map memberJsTags).getD []

/-- First overload of the hidden method `m`, documented. -/
def mOv1 : Member :=
  .element .methodDecl
    { name := "m", modifiers := [], params := [], type := some tyVoid,
      docParts := [ { kind := "text", text := "first overload" } ],
      jsTags := [] }

/-- Second overload of the hidden method `m`, with no documentation
block of its own. -/
def mOv2 : Member :=
  .element .methodDecl
    { name := "m", modifiers := [], params := [], type := some tyVoid,
      docParts := [], jsTags := [] }

/-- The member symbol of the overloaded method `m`. -/
def ovSymbol : MemberSymbol := { name := "m", declarations := [mOv1, mOv2] }

/-- Overload-documentation scenario: hidden `OvBase` declares `m` twice
(documentation only on the first overload) and exported
`OvDerived extends OvBase`. -/
def sfOverloadDoc : SourceFile :=
  { externals := []
    decls :=
      [ .classD "OvBase" [] [] [ mOv1, mOv2 ],
        .classD "OvDerived" [Modifier.exportKw]
          [ { isExtends := true,
              types := [ { expression := .ident "OvBase",
                           typeArguments := .nil } ] } ]
          [] ] }

/-- C7 counterexample: copying the hidden overloaded method, the second
copy's documentation lookup (overload index 1, an empty block) yields no
comment and the member is copied without documentation — but the run's
diagnostics are empty, so no `AmbiguousOverloadDoc` diagnostic reports it,
refuting the claim's reporting clause. -/
theorem c7_counterexample_no_ambiguity_diagnostic :
    extractJSDocComment ovSymbol [ .jsdocNode "first overload" [], mOv1 ] =
      none
    ∧ pruneDts sfOverloadDoc =
        .ok
          [ .notEmitted,
            .classD "OvDerived" [Modifier.exportKw] []
              [ .jsdocNode "first overload" [], mOv1, mOv2 ] ]
    ∧ pruneDiagnostics sfOverloadDoc = []
    ∧ ¬ ∃ d ∈ pruneDiagnostics sfOverloadDoc,
        d.kind = DiagnosticKind.ambiguousOverloadDoc := by
  refine ⟨rfl, by rfl, rfl, by simp [pruneDiagnostics]⟩

/-- C7 as amended: the documentation attached to a copied member is the
documentation block at the overload index equal to the number of
previously-copied class elements with the same name; when that block is
empty the copied member gets no documentation (the tool never attaches a
guessed comment) — but nothing is reported: the code has no
`AmbiguousOverloadDoc` (or any other) diagnostic. -/
theorem c7_overload_doc_by_positional_index (symbol : MemberSymbol)
    (alreadyAddedMembers : List Member) :
    extractJSDocComment symbol alreadyAddedMembers =
      (let overloadCount :=
        (alreadyAddedMembers.filter (fun node =>
          isClassElementNode node &&
            classElementNameOf node == some symbol.name)).length
       let block := (docBlocks (symbolDocParts symbol)).getD overloadCount []
       if block.isEmpty then none
       else
         some (.jsdocNode
           (formatDocBlock block ++
             (if 0 < (overloadTags symbol overloadCount).length then "\n"
              else ""))
           (overloadTags symbol overloadCount))) := by
  simp only [extractJSDocComment, select_eq_docBlocks, Nat.zero_le, if_true,
    Nat.sub_zero]
  cases hb : (docBlocks (symbolDocParts symbol)).getD
      ((alreadyAddedMembers.filter (fun node =>
        isClassElementNode node &&
          classElementNameOf node == some symbol.name)).length) [] with
  | nil => simp
  | cons x xs =>
    simp [formatDocBlock, overloadTags]

theorem heritageInnerFold (env : SourceFile) (node : Decl) :
    ∀ (types : List HeritageType) (acc : List HeritageType × List Member),
      types.foldl (fun (a : List HeritageType × List Member) t =>
        if isExportedHeritageType env t then (a.1 ++ [t], a.2)
        else
          (a.1,
            a.2 ++ convertPropertiesForEnclosingClass (typeProperties env t)
              node)) acc =
      (acc.1 ++ types.filter (isExportedHeritageType env),
        acc.2 ++
          (types.filter
            (fun t => !(isExportedHeritageType env t))).flatMap
            (fun t =>
              convertPropertiesForEnclosingClass (typeProperties env t) node))
  | [], acc => by simp
  | t :: ts, acc => by
    by_cases h : isExportedHeritageType env t
    · simp only [List.foldl_cons, h, if_true]
      rw [heritageInnerFold env node ts]
      simp [h, List.filter_cons]
    · simp only [List.foldl_cons, h, if_false]
      rw [heritageInnerFold env node ts]
      simp [h, List.filter_cons, List.flatMap_cons]

theorem heritageOuterFold (env : SourceFile) (node : Decl) :
    ∀ (hcs : List HeritageClause) (acc : List HeritageClause × List Member),
      hcs.foldl (fun acc heritageClause =>
        let inner := heritageClause.types.foldl
          (fun (a : List HeritageType × List Member) t =>
            if isExportedHeritageType env t then (a.1 ++ [t], a.2)
            else
              (a.1,
                a.2 ++ convertPropertiesForEnclosingClass
                  (typeProperties env t) node))
          ([], [])
        ((if 0 < inner.1.length then
            acc.1 ++ [{ heritageClause with types := inner.1 }]
          else acc.1),
          acc.2 ++ inner.2)) acc =
      (acc.1 ++ hcs.filterMap (fun c =>
        let ex := c.types.filter (isExportedHeritageType env)
        if 0 < ex.length then some { c with types := ex } else none),
        acc.2 ++ hcs.flatMap (fun c =>
          (c.types.filter
            (fun t => !(isExportedHeritageType env t))).flatMap
            (fun t =>
              convertPropertiesForEnclosingClass (typeProperties env t)
                node)))
  | [], acc => by simp
  | c :: cs, acc => by
    simp only [List.foldl_cons]
    rw [heritageInnerFold env node c.types ([], [])]
    rw [heritageOuterFold env node cs]
    by_cases h : 0 < (c.types.filter (isExportedHeritageType env)).length
    · simp [h, List.filterMap_cons, List.flatMap_cons]
    · simp [h, List.filterMap_cons, List.flatMap_cons]

theorem pruneHeritage_eq (env : SourceFile) (node : Decl) :
    pruneHeritage env node =
      ((declHeritageClauses node).filterMap (fun c =>
        let ex := c.types.filter (isExportedHeritageType env)
        if 0 < ex.length then some { c with types := ex } else none),
        (declHeritageClauses node).flatMap (fun c =>
          (c.types.filter
            (fun t => !(isExportedHeritageType env t))).flatMap
            (fun t =>
              convertPropertiesForEnclosingClass (typeProperties env t)
                node))) := by
  rw [pruneHeritage, heritageOuterFold env node (declHeritageClauses node)
    ([], [])]
  simp

theorem mem_pushCopiedMember (symbol : MemberSymbol) (acc : List Member)
    (missingMember : Member) (x : Member) (hx : x ∈ acc) :
    x ∈ pushCopiedMember symbol acc missingMember := by
  unfold pushCopiedMember
  cases extractJSDocComment symbol acc <;> simp [hx]

theorem self_mem_pushCopiedMember (symbol : MemberSymbol) (acc : List Member)
    (missingMember : Member) :
    missingMember ∈ pushCopiedMember symbol acc missingMember := by
  unfold pushCopiedMember
  cases extractJSDocComment symbol acc <;> simp

theorem mem_declsFold (symbol : MemberSymbol) :
    ∀ (decls : List Member) (acc : List Member) (x : Member), x ∈ acc →
      x ∈ decls.foldl (pushCopiedMember symbol) acc
  | [], _, _, hx => hx
  | d :: ds, acc, x, hx =>
    mem_declsFold symbol ds (pushCopiedMember symbol acc d) x
      (mem_pushCopiedMember symbol acc d x hx)

theorem mem_declsFold_self (symbol : MemberSymbol) :
    ∀ (decls : List Member) (acc : List Member) (m : Member), m ∈ decls →
      m ∈ decls.foldl (pushCopiedMember symbol) acc
  | d :: ds, acc, m, hm => by
    rcases List.mem_cons.mp hm with h | h
    · subst h
      exact mem_declsFold symbol ds (pushCopiedMember symbol acc m) m
        (self_mem_pushCopiedMember symbol acc m)
    · exact mem_declsFold_self symbol ds (pushCopiedMember symbol acc d) m h

theorem mem_copyMissingSymbol (currentClass : Decl) (acc : List Member)
    (symbol : MemberSymbol) (x : Member) (hx : x ∈ acc) :
    x ∈ copyMissingSymbol currentClass acc symbol := by
  unfold copyMissingSymbol
  by_cases h : ((declMembers currentClass).filterMap
      classElementNameOf).contains symbol.name = true
  · rw [if_pos h]
    exact hx
  · rw [if_neg h]
    exact mem_declsFold symbol symbol.declarations acc x hx

theorem mem_symsFold (currentClass : Decl) :
    ∀ (syms : List MemberSymbol) (acc : List Member) (x : Member), x ∈ acc →
      x ∈ syms.foldl (copyMissingSymbol currentClass) acc
  | [], _, _, hx => hx
  | s :: ss, acc, x, hx =>
    mem_symsFold currentClass ss (copyMissingSymbol currentClass acc s) x
      (mem_copyMissingSymbol currentClass acc s x hx)

theorem mem_symsFold_copied (currentClass : Decl) :
    ∀ (syms : List MemberSymbol) (acc : List Member) (s : MemberSymbol),
      s ∈ syms →
      ((declMembers currentClass).filterMap classElementNameOf).contains
        s.name = false →
      ∀ m ∈ s.declarations,
        m ∈ syms.foldl (copyMissingSymbol currentClass) acc
  | y :: ys, acc, s, hs, hname, m, hm => by
    rcases List.mem_cons.mp hs with h | h
    · subst h
      refine mem_symsFold currentClass ys
        (copyMissingSymbol currentClass acc s) m ?_
      unfold copyMissingSymbol
      simp only [hname, Bool.false_eq_true, if_false]
      exact mem_declsFold_self s s.declarations acc m hm
    · exact mem_symsFold_copied currentClass ys
        (copyMissingSymbol currentClass acc y) s h hname m hm

theorem mem_convertProperties (parentClassSymbols : List MemberSymbol)
    (currentClass : Decl) (s : MemberSymbol) (hs : s ∈ parentClassSymbols)
    (hname : ((declMembers currentClass).filterMap
      classElementNameOf).contains s.name = false)
    (m : Member) (hm : m ∈ s.declarations) :
    m ∈ convertPropertiesForEnclosingClass parentClassSymbols currentClass :=
  mem_symsFold_copied currentClass parentClassSymbols [] s hs hname m hm

theorem prunePrivateImports_ok_shape (env : SourceFile) (B out : Decl)
    (hB : isClassOrInterface B = true)
    (hout : prunePrivateImports env B = .ok out) :
    declHeritageClauses out = (pruneHeritage env B).1
    ∧ declMembers out = declMembers B ++ (pruneHeritage env B).2 := by
  cases B with
  | classD n mods hcs ms =>
    simp only [prunePrivateImports] at hout
    cases hout
    exact ⟨rfl, rfl⟩
  | interfaceD n mods hcs ms =>
    simp only [prunePrivateImports] at hout
    cases hout
    exact ⟨rfl, rfl⟩
  | functionD n mods params ret => simp [isClassOrInterface] at hB
  | typeAliasD n mods t => simp [isClassOrInterface] at hB
  | moduleD n mods body => simp [isClassOrInterface] at hB
  | enumD n mods ms => simp [isClassOrInterface] at hB
  | variableStatement mods ds => simp [isClassOrInterface] at hB
  | notEmitted => simp [isClassOrInterface] at hB

theorem filter_eq_nil_of_all_not {α : Type} (p : α → Bool) :
    ∀ l : List α, l.all (fun a => !(p a)) = true → l.filter p = []
  | [], _ => rfl
  | a :: l, h => by
    rw [List.all_cons, Bool.and_eq_true] at h
    have ha : p a = false := by simpa using h.1
    simp [List.filter_cons, ha, filter_eq_nil_of_all_not p l h.2]

theorem filterMap_keep_eq_nil (env : SourceFile) :
    ∀ hcs : List HeritageClause,
      hcs.all (fun c =>
        c.types.all (fun t => !(isExportedHeritageType env t))) = true →
      hcs.filterMap (fun c =>
        let ex := c.types.filter (isExportedHeritageType env)
        if 0 < ex.length then some { c with types := ex } else none) = []
  | [], _ => rfl
  | c :: cs, h => by
    rw [List.all_cons, Bool.and_eq_true] at h
    have hc : c.types.filter (isExportedHeritageType env) = [] :=
      filter_eq_nil_of_all_not _ _ h.1
    simp [List.filterMap_cons, hc, filterMap_keep_eq_nil env cs h.2]

/-- C3: for a retained class or interface `B`, `prunePrivateImports` keeps
exactly the heritage entries whose targets are exported identifiers, in
their original relative order, dropping a whole clause when no entry
survives (so zero kept edges means the clause list is empty, not an empty
clause); no kept entry references a non-exported target; `B`'s own members
are retained; and for every heritage target `A` resolving to a non-exported
declaration, every member symbol of `A` whose name is not already present
on `B` has each of its declarations (same signature, same attached
documentation data) copied into `B`'s member list. -/
theorem c3_hidden_heritage_merged (env : SourceFile) (B out : Decl)
    (hB : isClassOrInterface B = true)
    (hout : prunePrivateImports env B = .ok out) :
    (declHeritageClauses out =
      (declHeritageClauses B).filterMap (fun c =>
        let ex := c.types.filter (isExportedHeritageType env)
        if 0 < ex.length then some { c with types := ex } else none))
    ∧ (∀ c ∈ declHeritageClauses out, ∀ t ∈ c.types,
        isExportedHeritageType env t = true)
    ∧ (∀ c ∈ declHeritageClauses B,
        (c.types.filter (isExportedHeritageType env)).Sublist c.types)
    ∧ ((declHeritageClauses B).all (fun c =>
          c.types.all (fun t => !(isExportedHeritageType env t))) = true →
        declHeritageClauses out = [])
    ∧ (∀ m ∈ declMembers B, m ∈ declMembers out)
    ∧ (∀ c ∈ declHeritageClauses B, ∀ t ∈ c.types,
        isExportedHeritageType env t = false →
        ∀ s ∈ typeProperties env t,
          ((declMembers B).filterMap classElementNameOf).contains s.name =
            false →
          ∀ m ∈ s.declarations, m ∈ declMembers out) := by
  obtain ⟨hhc, hmem⟩ := prunePrivateImports_ok_shape env B out hB hout
  rw [pruneHeritage_eq] at hhc hmem
  refine ⟨hhc, ?_, ?_, ?_, ?_, ?_⟩
  · intro c hc t ht
    rw [hhc] at hc
    rcases List.mem_filterMap.mp hc with ⟨c₀, hc₀, heq⟩
    by_cases hlen :
        0 < (c₀.types.filter (isExportedHeritageType env)).length
    · rw [if_pos hlen] at heq
      cases heq
      exact (List.mem_filter.mp ht).2
    · rw [if_neg hlen] at heq
      cases heq
  · intro c _
    exact List.filter_sublist c.types
  · intro hall
    rw [hhc]
    exact filterMap_keep_eq_nil env (declHeritageClauses B) hall
  · intro m hm
    rw [hmem]
    exact List.mem_append_left _ hm
  · intro c hc t ht hne s hs hname m hm
    rw [hmem]
    refine List.mem_append_right _ (List.mem_flatMap.mpr ⟨c, hc, ?_⟩)
    refine List.mem_flatMap.mpr ⟨t, List.mem_filter.mpr ⟨ht, by simp [hne]⟩, ?_⟩
    exact mem_convertProperties (typeProperties env t) B s hs hname m hm

/-- The heritage entry naming `Base`. -/
def baseHeritageType : HeritageType :=
  { expression := .ident "Base", typeArguments := .nil }

/-- The `extends Base` clause. -/
def baseHeritageClause : HeritageClause :=
  { isExtends := true, types := [baseHeritageType] }

/-- The `Derived` class of the heritage scenario. -/
def derivedClass : Decl :=
  .classD "Derived" [Modifier.exportKw] [baseHeritageClause] []

/-- Result of `prunePrivateImports` on `derivedClass`: the heritage clause
naming hidden `Base` is gone and `Base`'s members are merged in. -/
def derivedPruned : Decl :=
  .classD "Derived" [Modifier.exportKw] []
    [ plainElement .propertyDecl "_secret" (some tyNumber),
      plainElement .methodDecl "ok" (some tyVoid) ]

theorem c3_witness :
    declHeritageClauses derivedPruned = []
    ∧ plainElement .methodDecl "ok" (some tyVoid) ∈
        declMembers derivedPruned
    ∧ plainElement .propertyDecl "_secret" (some tyNumber) ∈
        declMembers derivedPruned :=
  have h := c3_hidden_heritage_merged sfScenarioHeritage derivedClass
    derivedPruned (by decide) (by rfl)
  have hBase : baseHeritageClause ∈ declHeritageClauses derivedClass := by
    decide
  have hTy : baseHeritageType ∈ baseHeritageClause.types := by decide
  ⟨h.2.2.2.1 (by decide),
    h.2.2.2.2.2 baseHeritageClause hBase baseHeritageType hTy (by decide)
      { name := "ok",
        declarations := [ plainElement .methodDecl "ok" (some tyVoid) ] }
      (by decide) (by decide) _ (by decide),
    h.2.2.2.2.2 baseHeritageClause hBase baseHeritageType hTy (by decide)
      { name := "_secret",
        declarations :=
          [ plainElement .propertyDecl "_secret" (some tyNumber) ] }
      (by decide) (by decide) _ (by decide)⟩

theorem map_id_of_all {α : Type} (f : α → α) :
    ∀ l : List α, (∀ a ∈ l, f a = a) → l.map f = l
  | [], _ => rfl
  | a :: l, h => by
    rw [List.map_cons, h a (List.mem_cons_self a l),
      map_id_of_all f l (fun x hx => h x (List.mem_cons_of_mem a hx))]

theorem filter_eq_self_of_all {α : Type} (p : α → Bool) :
    ∀ l : List α, l.all p = true → l.filter p = l
  | [], _ => rfl
  | a :: l, h => by
    rw [List.all_cons, Bool.and_eq_true] at h
    simp [List.filter_cons, h.1, filter_eq_self_of_all p l h.2]

theorem filter_not_eq_nil_of_all {α : Type} (p : α → Bool) :
    ∀ l : List α, l.all p = true → l.filter (fun a => !(p a)) = []
  | [], _ => rfl
  | a :: l, h => by
    rw [List.all_cons, Bool.and_eq_true] at h
    simp [List.filter_cons, h.1, filter_not_eq_nil_of_all p l h.2]

mutual
theorem transformTy_pruned (env : SourceFile) :
    ∀ t : Ty, tyPruned env t = true → transformTy env t = t
  | .ref typeName typeArguments, h => by
    simp only [tyPruned, Bool.and_eq_true] at h
    have hargs := transformTys_pruned env typeArguments h.2
    cases typeName with
    | ident s =>
      have hexp : isExported env s = true := h.1
      have hext : extractExportedSymbol env (.ident s) = none := by
        simp [extractExportedSymbol, hexp]
      simp only [transformTy, hext, hargs]
    | qualified l r =>
      have hext : extractExportedSymbol env (.qualified l r) = none := rfl
      simp only [transformTy, hext, hargs]
  | .keyword k, _ => rfl

theorem transformTys_pruned (env : SourceFile) :
    ∀ ts : TyList, tysPruned env ts = true → transformTys env ts = ts
  | .nil, _ => rfl
  | .cons t ts, h => by
    simp only [tysPruned, Bool.and_eq_true] at h
    simp only [transformTys, transformTy_pruned env t h.1,
      transformTys_pruned env ts h.2]
end

theorem optTy_map_pruned (env : SourceFile) :
    ∀ o : Option Ty, optTyPruned env o = true →
      o.map (transformTy env) = o
  | none, _ => rfl
  | some t, h => by
    have ht := transformTy_pruned env t (by simpa [optTyPruned] using h)
    simp [ht]

theorem transformParam_pruned (env : SourceFile) (p : Param)
    (h : paramPruned env p = true) : transformParam env p = p := by
  cases p with
  | mk name type =>
    have ht := optTy_map_pruned env type (by simpa [paramPruned] using h)
    simp [transformParam, ht]

theorem transformMember_pruned (env : SourceFile) :
    ∀ m : Member, memberPruned env m = true → transformMember env m = m
  | .ctor mods params hasBody tags, h => by
    rw [memberPruned, Bool.and_eq_true] at h
    have hfind :
        tags.find? (fun t => t.tagName == "hideconstructor") = none := by
      rw [List.find?_eq_none]
      intro x hx
      have := List.all_eq_true.mp h.1 x hx
      simpa using this
    have hmhc : maybeHideConstructor (.ctor mods params hasBody tags) =
        .ctor mods params hasBody tags := by
      rw [maybeHideConstructor, hfind]
    have hp : List.map (transformParam env) params = params :=
      map_id_of_all (transformParam env) params
        (fun p hp => transformParam_pruned env p
          (List.all_eq_true.mp h.2 p hp))
    rw [transformMember, hmhc]
    simp [hp]
  | .element kind dat, h => by
    rw [memberPruned, Bool.and_eq_true, Bool.and_eq_true] at h
    have hname : hasPrivatePrefix dat.name = false := by
      have := h.1.1
      simpa using this
    have hp : List.map (transformParam env) dat.params = dat.params :=
      map_id_of_all (transformParam env) dat.params
        (fun p hp => transformParam_pruned env p
          (List.all_eq_true.mp h.1.2 p hp))
    have ht := optTy_map_pruned env dat.type h.2
    rw [transformMember]
    rw [if_neg (by simp [hname])]
    rw [hp, ht]
  | .jsdocNode c t, _ => rfl
  | .notEmittedM, _ => rfl

theorem transformHeritageType_pruned (env : SourceFile) (t : HeritageType)
    (h : tysPruned env t.typeArguments = true) :
    transformHeritageType env t = t := by
  cases t with
  | mk e args =>
    rw [transformHeritageType]
    rw [transformTys_pruned env args (by simpa using h)]

theorem transformHeritageClause_pruned (env : SourceFile)
    (c : HeritageClause) (h : heritageClausePruned env c = true) :
    transformHeritageClause env c = c := by
  rw [heritageClausePruned, Bool.and_eq_true] at h
  cases c with
  | mk isExt types =>
    rw [transformHeritageClause]
    rw [map_id_of_all (transformHeritageType env) types
      (fun t ht => transformHeritageType_pruned env t
        (Bool.and_eq_true .. |>.mp
          (List.all_eq_true.mp h.2 t ht) |>.2))]

theorem clause_types_all_exported (env : SourceFile) (c : HeritageClause)
    (h : heritageClausePruned env c = true) :
    c.types.all (isExportedHeritageType env) = true := by
  rw [heritageClausePruned, Bool.and_eq_true] at h
  rw [List.all_eq_true]
  intro t ht
  exact (Bool.and_eq_true ..|>.mp (List.all_eq_true.mp h.2 t ht)).1

theorem clause_types_length_pos (env : SourceFile) (c : HeritageClause)
    (h : heritageClausePruned env c = true) : 0 < c.types.length := by
  rw [heritageClausePruned, Bool.and_eq_true] at h
  cases htypes : c.types with
  | nil =>
    rw [htypes] at h
    simp at h
  | cons x xs => simp

theorem filterMap_keep_eq_self (env : SourceFile) :
    ∀ hcs : List HeritageClause,
      hcs.all (heritageClausePruned env) = true →
      hcs.filterMap (fun c =>
        let ex := c.types.filter (isExportedHeritageType env)
        if 0 < ex.length then some { c with types := ex } else none) = hcs
  | [], _ => rfl
  | c :: cs, h => by
    rw [List.all_cons, Bool.and_eq_true] at h
    have hfeq : c.types.filter (isExportedHeritageType env) = c.types :=
      filter_eq_self_of_all _ _ (clause_types_all_exported env c h.1)
    have hpos := clause_types_length_pos env c h.1
    have heta : ({ c with types := c.types } : HeritageClause) = c := rfl
    simp only [List.filterMap_cons, hfeq, hpos, if_true, heta,
      filterMap_keep_eq_self env cs h.2]

theorem heritage_flatMap_nil (env : SourceFile) (node : Decl) :
    ∀ hcs : List HeritageClause,
      hcs.all (heritageClausePruned env) = true →
      hcs.flatMap (fun c =>
        (c.types.filter
          (fun t => !(isExportedHeritageType env t))).flatMap
          (fun t =>
            convertPropertiesForEnclosingClass (typeProperties env t)
              node)) = []
  | [], _ => rfl
  | c :: cs, h => by
    rw [List.all_cons, Bool.and_eq_true] at h
    have hfeq : c.types.filter
        (fun t => !(isExportedHeritageType env t)) = [] :=
      filter_not_eq_nil_of_all _ _ (clause_types_all_exported env c h.1)
    simp only [List.flatMap_cons, hfeq, List.flatMap_nil,
      List.nil_append, heritage_flatMap_nil env node cs h.2]

theorem pruneHeritage_pruned_class (env : SourceFile) (node : Decl)
    (h : (declHeritageClauses node).all (heritageClausePruned env) = true) :
    pruneHeritage env node = (declHeritageClauses node, []) := by
  rw [pruneHeritage_eq,
    filterMap_keep_eq_self env (declHeritageClauses node) h,
    heritage_flatMap_nil env node (declHeritageClauses node) h]

mutual
theorem transformDecl_pruned (env : SourceFile) :
    ∀ d : Decl, declPruned env d = true → transformDecl env d = .ok d
  | .classD n mods hcs ms, h => by
    simp only [declPruned, Bool.and_eq_true] at h
    have hpp : prunePrivateImports env (.classD n mods hcs ms) =
        .ok (.classD n mods hcs ms) := by
      have hph := pruneHeritage_pruned_class env (.classD n mods hcs ms)
        (by simpa [declHeritageClauses] using h.1.2)
      simp [prunePrivateImports, hph, declHeritageClauses]
    have hherit : hcs.map (transformHeritageClause env) = hcs :=
      map_id_of_all _ hcs (fun c hc => transformHeritageClause_pruned env c
        (List.all_eq_true.mp h.1.2 c hc))
    have hmem : ms.map (transformMember env) = ms :=
      map_id_of_all _ ms (fun m hm => transformMember_pruned env m
        (List.all_eq_true.mp h.2 m hm))
    simp [transformDecl, h.1.1, hpp, mapClassChildren, hherit, hmem]
  | .interfaceD n mods hcs ms, h => by
    simp only [declPruned, Bool.and_eq_true] at h
    have hpp : prunePrivateImports env (.interfaceD n mods hcs ms) =
        .ok (.interfaceD n mods hcs ms) := by
      have hph := pruneHeritage_pruned_class env (.interfaceD n mods hcs ms)
        (by simpa [declHeritageClauses] using h.1.2)
      simp [prunePrivateImports, hph, declHeritageClauses]
    have hherit : hcs.map (transformHeritageClause env) = hcs :=
      map_id_of_all _ hcs (fun c hc => transformHeritageClause_pruned env c
        (List.all_eq_true.mp h.1.2 c hc))
    have hmem : ms.map (transformMember env) = ms :=
      map_id_of_all _ ms (fun m hm => transformMember_pruned env m
        (List.all_eq_true.mp h.2 m hm))
    simp [transformDecl, h.1.1, hpp, mapClassChildren, hherit, hmem]
  | .functionD n mods params ret, h => by
    simp only [declPruned, Bool.and_eq_true] at h
    have hp : params.map (transformParam env) = params :=
      map_id_of_all _ params (fun p hp => transformParam_pruned env p
        (List.all_eq_true.mp h.1.2 p hp))
    have hr : ret.map (transformTy env) = ret :=
      optTy_map_pruned env ret h.2
    simp [transformDecl, h.1.1, hp, hr]
  | .typeAliasD n mods t, h => by
    simp only [declPruned, Bool.and_eq_true] at h
    simp [transformDecl, h.1, transformTy_pruned env t h.2]
  | .moduleD n mods body, h => by
    simp only [declPruned, Bool.and_eq_true] at h
    have hb := transformDeclList_pruned env body h.2
    simp [transformDecl, h.1, hb]
  | .enumD n mods ms, h => by
    simp only [declPruned, Bool.and_eq_true] at h
    simp [transformDecl, h]
  | .variableStatement mods ds, h => by
    simp only [declPruned, Bool.and_eq_true] at h
    have hd : ds.map (fun p => (p.1, p.2.map (transformTy env))) = ds := by
      refine map_id_of_all _ ds (fun p hp => ?_)
      cases p with
      | mk a b =>
        rw [optTy_map_pruned env b (List.all_eq_true.mp h.2 (a, b) hp)]
    simp [transformDecl, h.1, hd]
  | .notEmitted, _ => rfl

theorem transformDeclList_pruned (env : SourceFile) :
    ∀ ds : DeclList, declListPruned env ds = true →
      transformDeclList env ds = .ok ds
  | .nil, _ => rfl
  | .cons d ds, h => by
    simp only [declListPruned, Bool.and_eq_true] at h
    simp [transformDeclList, transformDecl_pruned env d h.1,
      transformDeclList_pruned env ds h.2]
end

theorem transformTopLevel_pruned (env : SourceFile) :
    ∀ ds : List Decl, ds.all (declPruned env) = true →
      transformTopLevel env ds = .ok ds
  | [], _ => rfl
  | d :: ds, h => by
    rw [List.all_cons, Bool.and_eq_true] at h
    simp [transformTopLevel, transformDecl_pruned env d h.1,
      transformTopLevel_pruned env ds h.2]

/-- C8: pruning an already fully pruned source file — all top-level
declarations exported, no hidden-name members, no hide-tagged constructors,
every heritage clause nonempty with exported identifier targets, and every
signature reference already exported or out-of-tree — returns the tree
unchanged. -/
theorem c8_prune_idempotent_on_pruned (sf : SourceFile)
    (h : fullyPruned sf = true) : pruneDts sf = .ok sf.decls :=
  transformTopLevel_pruned sf sf.decls h

/-- An already-pruned sample file: exported class `A`, exported
`B extends A`, and an exported function whose signature references `A` and
the out-of-tree type `Error`. -/
def sfAlreadyPruned : SourceFile :=
  { externals := ["Error"]
    decls :=
      [ .classD "A" [Modifier.exportKw] []
          [ plainElement .methodDecl "go" (some tyVoid) ],
        .classD "B" [Modifier.exportKw]
          [ { isExtends := true,
              types := [ { expression := .ident "A",
                           typeArguments := .nil } ] } ]
          [],
        .functionD "f" [Modifier.exportKw]
          [ { name := "a", type := some (.ref (.ident "A") .nil) } ]
          (some (.ref (.ident "Error") .nil)) ] }

theorem c8_witness :
    fullyPruned sfAlreadyPruned = true
    ∧ pruneDts sfAlreadyPruned = .ok sfAlreadyPruned.decls :=
  ⟨by decide, c8_prune_idempotent_on_pruned sfAlreadyPruned (by decide)⟩
